import Mathlib

/-!
Verification of the NLP agent core (apps/research-agent/containers/nlp):
a shallow embedding of `utils.py`, `nlp_agent.py`, `config.py` and the
`/process` handler of `main.py`, followed by theorems settling the spec
claims.  External collaborators (NLTK tokenizers, spaCy, the transformer
pipelines, TextBlob) are parameters of the embedded functions: each model
is a function returning `Option` output, `none` meaning "unavailable or
raised", matching the source's try/except fallback structure.  Numeric
scores are modelled as rationals.
-/

namespace NLP

/-- Whitespace class used by Python's `str.strip` and the regex `\s`
(ASCII fragment: space, tab, newline, carriage return, vertical tab,
form feed). -/
def isWs (c : Char) : Bool :=
  c = ' ' || c = '\t' || c = '\n' || c = '\r' || c = '\x0b' || c = '\x0c'

/-- Worker for whitespace collapsing: the flag records whether the
previous character was whitespace (in which case further whitespace is
dropped rather than emitting another space). -/
def collapseGo : Bool → List Char → List Char
  | _, [] => []
  | prevWs, c :: rest =>
    if isWs c then
      if prevWs then collapseGo true rest
      else ' ' :: collapseGo true rest
    else c :: collapseGo false rest

/-- Collapse every maximal run of whitespace to a single space
(the `re.sub(r'\s+', ' ', ·)` part of `clean_text`). -/
def collapseWs (l : List Char) : List Char := collapseGo false l

/-- Python `str.strip()` on a character list: drop whitespace from both
ends. -/
def stripWs (l : List Char) : List Char :=
  ((l.dropWhile isWs).reverse.dropWhile isWs).reverse

/-- Python `text.strip()`. -/
def pyStrip (s : String) : String := ⟨stripWs s.data⟩

/-- `utils.clean_text`: `re.sub(r'\s+', ' ', text.strip())`. -/
def clean_text (s : String) : String := ⟨collapseWs (stripWs s.data)⟩

/-- No two consecutive whitespace characters. -/
def noDoubleWs : List Char → Bool
  | [] => true
  | [_] => true
  | a :: b :: rest => !(isWs a && isWs b) && noDoubleWs (b :: rest)

/-- First character, if any, is not whitespace. -/
def noLeadWs (l : List Char) : Bool :=
  match l.head? with
  | some c => !isWs c
  | none => true

/-- Last character, if any, is not whitespace. -/
def noTrailWs (l : List Char) : Bool := noLeadWs l.reverse

namespace config

/-- `config.max_chunk_size`. -/
def max_chunk_size : Nat := 1000

/-- `config.max_entities`. -/
def max_entities : Nat := 10

/-- `config.summary_max_length`. -/
def summary_max_length : Int := 150

/-- `config.sentiment_label_mapping` as built in `__post_init__`. -/
def sentiment_label_mapping (raw : String) : Option String :=
  if raw = "LABEL_0" then some "negative"
  else if raw = "LABEL_1" then some "neutral"
  else if raw = "LABEL_2" then some "positive"
  else if raw = "NEGATIVE" then some "negative"
  else if raw = "NEUTRAL" then some "neutral"
  else if raw = "POSITIVE" then some "positive"
  else none

end config

/-- Inner loop of `utils.chunk_text` over the tokenized sentences,
carrying the accumulated chunk list and the current buffer. -/
def chunkGo (maxSize : Nat) : List String → List String → String → List String
  | [], chunks, current =>
    if current ≠ "" then chunks ++ [pyStrip current] else chunks
  | s :: rest, chunks, current =>
    if current.length + s.length > maxSize then
      if current ≠ "" then chunkGo maxSize rest (chunks ++ [pyStrip current]) s
      else chunkGo maxSize rest chunks s
    else chunkGo maxSize rest chunks (current ++ " " ++ s)

/-- `utils.chunk_text(text, max_chunk_size)`.  The NLTK sentence
tokenizer is the parameter `sentTok`. -/
def chunk_text (sentTok : String → List String) (text : String)
    (maxSize : Nat) : List String :=
  chunkGo maxSize (sentTok text) [] ""

/-- Python `w.isalnum()`: non-empty and every character alphanumeric. -/
def pyIsAlnum (w : String) : Bool :=
  w ≠ "" && w.data.all Char.isAlphanum

/-- `utils.extract_keywords(text, min_length=3)`: the multiset of kept
words (the `Counter` is recovered by `List.count`).  The NLTK word
tokenizer is the parameter `wordTok`. -/
def extract_keywords (wordTok : String → List String) (text : String)
    (min_length : Nat := 3) : List String :=
  (wordTok text.toLower).filter (fun w => pyIsAlnum w && w.length > min_length)

/-- Score of one sentence in `_extractive_summary`:
`sum(word_freq[w] for w in words if w in word_freq)`. -/
def sentence_score (wordTok : String → List String) (keywords : List String)
    (sentence : String) : Nat :=
  (((wordTok sentence.toLower).filter (fun w => keywords.count w ≠ 0)).map
    (fun w => keywords.count w)).sum

/-- Worker for order-preserving deduplication, carrying the keys seen so
far. -/
def firstDedupGo (seen : List String) : List String → List String
  | [] => []
  | a :: rest =>
    if a ∈ seen then firstDedupGo seen rest
    else a :: firstDedupGo (a :: seen) rest

/-- Order-preserving deduplication: the key order of the Python dict
`sentence_scores` (first occurrence wins). -/
def firstDedup (l : List String) : List String := firstDedupGo [] l

/-- Stable insertion of one scored entry into a descending-sorted list:
it passes over entries with a strictly larger score only, so an
earlier-listed entry of equal score stays first — the tie behavior of
Python's stable `sorted(..., reverse=True)`. -/
def insertDesc (x : String × Nat) : List (String × Nat) → List (String × Nat)
  | [] => [x]
  | y :: ys => if x.2 ≥ y.2 then x :: y :: ys else y :: insertDesc x ys

/-- `sorted(sentence_scores.items(), key=lambda x: x[1], reverse=True)`:
stable descending sort by score. -/
def sortDesc (l : List (String × Nat)) : List (String × Nat) :=
  l.foldr insertDesc []

/-- The `sentence_scores` dict of `_extractive_summary`, sorted
descending by score. -/
def rankedSentences (wordTok sentTok : String → List String)
    (text : String) : List (String × Nat) :=
  let keywords := extract_keywords wordTok text
  sortDesc ((firstDedup (sentTok text)).map
    (fun s => (s, sentence_score wordTok keywords s)))

/-- `summary_sentences` of `_extractive_summary`: texts of the
`min(3, len(sentences)//2)` top-ranked dict entries. -/
def summarySentences (wordTok sentTok : String → List String)
    (text : String) : List String :=
  ((rankedSentences wordTok sentTok text).take
    (min 3 ((sentTok text).length / 2))).map Prod.fst

/-- The `summary` list of `_extractive_summary`: every sentence (in
original order, duplicates included) whose text was selected. -/
def emittedSentences (wordTok sentTok : String → List String)
    (text : String) : List String :=
  (sentTok text).filter (fun s => s ∈ summarySentences wordTok sentTok text)

/-- `NLPProcessor._extractive_summary(text, max_length)`. -/
def extractive_summary (wordTok sentTok : String → List String)
    (text : String) (max_length : Int) : String :=
  if (sentTok text).length ≤ 2 then text
  else
    let summary_text := " ".intercalate (emittedSentences wordTok sentTok text)
    if (summary_text.length : Int) > max_length then
      summary_text.take max_length.toNat ++ "..."
    else summary_text

/-- Per-chunk output budget on the model summarization path:
`min(max_length // len(chunks), 130)` (Python `//` is floor division). -/
def chunkBudget (max_length : Int) (chunk_count : Nat) : Int :=
  min (max_length.fdiv chunk_count) 130

/-- `min_length=20` passed alongside the budget on the model path. -/
def modelMinLength : Int := 20

/-- `NLPProcessor.summarize_text(text, max_length)`.  The summarizer
pipeline is `summarizer : chunk → max_length → min_length → Option
summary`, `none` meaning the call raised; any raise during the chunk
loop discards all model output and falls through to the extractive
fallback. -/
def summarize_text (wordTok sentTok : String → List String)
    (summarizer : Option (String → Int → Int → Option String))
    (text : String) (max_length : Int := config.summary_max_length) : String :=
  if text = "" ∨ (pyStrip text).length < 50 then text
  else
    let cleaned := clean_text text
    let fallback := extractive_summary wordTok sentTok cleaned max_length
    match summarizer with
    | some f =>
      if cleaned.length > 200 then
        let chunks := chunk_text sentTok cleaned config.max_chunk_size
        match (chunks.take 3).mapM
            (fun c => f c (chunkBudget max_length chunks.length) modelMinLength) with
        | some summaries => " ".intercalate summaries
        | none => fallback
      else fallback
    | none => fallback

/-- `models.SentimentResult`. -/
structure SentimentResult where
  score : ℚ
  label : String
  confidence : ℚ
deriving DecidableEq, Repr

/-- `models.EntityResult`. -/
structure EntityResult where
  text : String
  label : String
  confidence : ℚ
deriving DecidableEq, Repr

/-- The 512-character truncation `text[:512]` handed to the sentiment
model — note it is applied to the raw text, not to `clean_text text`. -/
def sentimentModelInput (text : String) : String := text.take 512

/-- The 1000-character truncation `text[:1000]` handed to the spaCy
entity model — applied to the raw text, not to `clean_text text`. -/
def entitiesModelInput (text : String) : String := text.take 1000

/-- `max(results[0], key=lambda x: x['score'])` on a non-empty list:
first element of maximal score (Python keeps the earliest among
equals). -/
def maxByScore (x : String × ℚ) (xs : List (String × ℚ)) : String × ℚ :=
  xs.foldl (fun b a => if a.2 > b.2 then a else b) x

/-- The TextBlob fallback branch of `analyze_sentiment`: polarity with
threshold labels, confidence the absolute polarity.  The TextBlob
polarity of the raw text is the parameter `polarity`. -/
def textblobFallback (polarity : String → ℚ) (text : String) : SentimentResult :=
  let p := polarity text
  let label := if p > 1/10 then "positive"
    else if p < -(1/10) then "negative" else "neutral"
  ⟨p, label, |p|⟩

/-- The transformer branch of `analyze_sentiment` applied to the winning
class `best`: map the raw label, fold the raw score into a signed scale,
keep the raw score as confidence. -/
def modelSentiment (best : String × ℚ) : SentimentResult :=
  let label := (config.sentiment_label_mapping best.1).getD best.1.toLower
  let score := if label = "negative" then -best.2
    else if label = "neutral" then 0 else best.2
  ⟨score, label, best.2⟩

/-- Dispatch on the transformer call's outcome: a non-empty class list
goes through `modelSentiment` on the winning class; a raise (`none`) or
an empty class list (which makes `max` raise) falls back to TextBlob. -/
def sentimentFromModel (polarity : String → ℚ) (text : String) :
    Option (List (String × ℚ)) → SentimentResult
  | some (r :: rs) => modelSentiment (maxByScore r rs)
  | some [] => textblobFallback polarity text
  | none => textblobFallback polarity text

/-- `NLPProcessor.analyze_sentiment(text)`.  The transformer pipeline is
`analyzer : input → Option (list of (label, score))`, `none` meaning the
call raised. -/
def analyze_sentiment (analyzer : Option (String → Option (List (String × ℚ))))
    (polarity : String → ℚ) (text : String) : SentimentResult :=
  if text = "" then ⟨0, "neutral", 0⟩
  else
    match analyzer with
    | some f => sentimentFromModel polarity text (f (sentimentModelInput text))
    | none => textblobFallback polarity text

/-- `models.LanguageResult`. -/
structure LanguageResult where
  code : String
  confidence : ℚ
deriving DecidableEq, Repr

/-- `NLPProcessor.detect_language(text)`: TextBlob language detection on
the raw text; `none` (a raise) yields the fixed fallback {en, 0.5}. -/
def detect_language (detector : String → Option String)
    (text : String) : LanguageResult :=
  match detector text with
  | some code => ⟨code, 8/10⟩
  | none => ⟨"en", 5/10⟩

/-- Condition kept by the entity fallback:
`len(np) > 2 and np.replace(' ', '').isalpha()`. -/
def keepNounPhrase (np : String) : Bool :=
  np.length > 2 &&
    (let core := np.data.filter (fun c => c ≠ ' ')
     !core.isEmpty && core.all Char.isAlpha)

/-- The TextBlob noun-phrase fallback of `extract_entities`: filtered
noun phrases labeled "NOUN_PHRASE" with confidence 0.7, truncated to
`config.max_entities`. -/
def entitiesFallback (nounPhrases : String → List String)
    (text : String) : List EntityResult :=
  (((nounPhrases text).filter keepNounPhrase).map
    (fun np => ⟨np, "NOUN_PHRASE", 7/10⟩)).take config.max_entities

/-- Dispatch on the spaCy call's outcome: a successful run returns one
entity per span with confidence 0.9, untruncated (the `return entities`
line); a raise falls back to the noun-phrase heuristic. -/
def entitiesFromModel (nounPhrases : String → List String) (text : String) :
    Option (List (String × String)) → List EntityResult
  | some spans => spans.map (fun p => ⟨p.1, p.2, 9/10⟩)
  | none => entitiesFallback nounPhrases text

/-- `NLPProcessor.extract_entities(text)`.  The spaCy model is
`model : input → Option (list of (span text, span label))`, `none`
meaning it raised; TextBlob's noun phrases of the raw text are
`nounPhrases`. -/
def extract_entities (model : Option (String → Option (List (String × String))))
    (nounPhrases : String → List String) (text : String) : List EntityResult :=
  match model with
  | some f => entitiesFromModel nounPhrases text (f (entitiesModelInput text))
  | none => entitiesFallback nounPhrases text

/-- Operation names recognized by the `/process` dispatch chain in
`main.py`. -/
def validOps : List String := ["summarize", "sentiment", "entities", "language"]

/-- The operation loop of `process_text`: returns the operations
executed (in order) and the validation error, if an unknown name was
reached.  Each recognized operation invokes its capability before the
next list element is examined. -/
def runOperations : List String → List String × Option String
  | [] => ([], none)
  | op :: rest =>
    if op ∈ validOps then
      let r := runOperations rest
      (op :: r.1, r.2)
    else
      ([], some ("Unknown operation: " ++ op ++
        ". Supported: summarize, sentiment, entities, language"))

/-- The validation structure of `main.process_text`: empty / blank text
and empty operation list are rejected up front; then the operation loop
runs.  Result: (capabilities executed, error detail if rejected). -/
def process_text (text : String) (ops : List String) :
    List String × Option String :=
  if text = "" ∨ pyStrip text = "" then ([], some "Text is required")
  else if ops = [] then ([], some "At least one operation is required")
  else runOperations ops

/-- Concrete word tokenizer used in closed instances: split on spaces
(matches NLTK's word tokenizer on simple space-separated words). -/
def spaceTok (s : String) : List String :=
  (s.splitOn " ").filter (fun w => w ≠ "")

/-- Six tokenized sentences with the first one repeated four times, for
exercising `_extractive_summary` on duplicate sentences. -/
def dupSents : List String :=
  ["The cat sat here.", "The cat sat here.", "The cat sat here.",
   "The cat sat here.", "Dogs bark loudly outside.", "Birds sing in trees."]

/-- Sentence tokenizer returning `dupSents`. -/
def dupTok : String → List String := fun _ => dupSents

/-- The text whose tokenization is `dupSents`. -/
def dupText : String := " ".intercalate dupSents

/-- Sentence tokenizer returning three distinct sentences. -/
def triTok : String → List String :=
  fun _ => ["One two.", "Three four.", "Five six."]

/-! ### Whitespace lemmas about the Normalizer -/

theorem noLeadWs_iff {l : List Char} :
    noLeadWs l = true ↔ ∀ c, l.head? = some c → isWs c = false := by
  cases l with
  | nil => simp [noLeadWs]
  | cons c rest => simp [noLeadWs]

theorem noLeadWs_dropWhile (l : List Char) :
    noLeadWs (l.dropWhile isWs) = true := by
  induction l with
  | nil => rfl
  | cons c rest ih =>
    rw [List.dropWhile_cons]
    by_cases h : isWs c = true
    · simpa [h] using ih
    · simp [h, noLeadWs]

theorem noTrailWs_getLast? {l : List Char} :
    noTrailWs l =
      (match l.getLast? with | some c => !isWs c | none => true) := by
  unfold noTrailWs noLeadWs
  rw [List.head?_reverse]

theorem noTrailWs_iff {l : List Char} :
    noTrailWs l = true ↔ ∀ c, l.getLast? = some c → isWs c = false := by
  rw [noTrailWs_getLast?]
  cases h : l.getLast? with
  | none => simp
  | some c => simp

theorem getLast?_cons_of_ne_nil {c : Char} {l : List Char} (h : l ≠ []) :
    (c :: l).getLast? = l.getLast? := by
  have hrw : (c :: l) = [c] ++ l := rfl
  rw [hrw, List.getLast?_append]
  have hs : l.getLast?.isSome = true := List.getLast?_isSome.mpr h
  cases hl : l.getLast? with
  | none => rw [hl] at hs; simp at hs
  | some d => rfl

theorem collapseGo_cons_ws_true {c : Char} (h : isWs c = true)
    (l : List Char) : collapseGo true (c :: l) = collapseGo true l := by
  simp [collapseGo, h]

theorem collapseGo_cons_ws_false {c : Char} (h : isWs c = true)
    (l : List Char) : collapseGo false (c :: l) = ' ' :: collapseGo true l := by
  simp [collapseGo, h]

theorem collapseGo_cons_not_ws {c : Char} (h : isWs c = false)
    (flag : Bool) (l : List Char) :
    collapseGo flag (c :: l) = c :: collapseGo false l := by
  simp [collapseGo, h]

theorem noLeadWs_collapseGo_true (l : List Char) :
    noLeadWs (collapseGo true l) = true := by
  induction l with
  | nil => rfl
  | cons c rest ih =>
    by_cases hc : isWs c = true
    · rw [collapseGo_cons_ws_true hc]; exact ih
    · rw [collapseGo_cons_not_ws (by simpa using hc)]
      simpa [noLeadWs] using (by simpa using hc : isWs c = false)

theorem noLeadWs_collapseWs {l : List Char} (h : noLeadWs l = true) :
    noLeadWs (collapseWs l) = true := by
  unfold collapseWs
  cases l with
  | nil => rfl
  | cons c rest =>
    have hc : isWs c = false := (noLeadWs_iff.mp h) c rfl
    rw [collapseGo_cons_not_ws hc]
    simpa [noLeadWs] using hc

theorem mem_collapseGo_ws_eq_space :
    ∀ (l : List Char) (flag : Bool), ∀ c ∈ collapseGo flag l,
      isWs c = true → c = ' ' := by
  intro l
  induction l with
  | nil => intro flag c hc; simp [collapseGo] at hc
  | cons a rest ih =>
    intro flag c hc hw
    by_cases ha : isWs a = true
    · cases flag with
      | true =>
        rw [collapseGo_cons_ws_true ha] at hc
        exact ih true c hc hw
      | false =>
        rw [collapseGo_cons_ws_false ha] at hc
        rcases List.mem_cons.mp hc with h | h
        · exact h
        · exact ih true c h hw
    · rw [collapseGo_cons_not_ws (by simpa using ha)] at hc
      rcases List.mem_cons.mp hc with h | h
      · rw [h] at hw; exact absurd hw ha
      · exact ih false c h hw

theorem mem_collapseWs_ws_eq_space (l : List Char) :
    ∀ c ∈ collapseWs l, isWs c = true → c = ' ' :=
  fun c hc hw => mem_collapseGo_ws_eq_space l false c hc hw

theorem noDoubleWs_cons_of {a : Char} {l : List Char}
    (h : isWs a = false ∨ noLeadWs l = true) (hnd : noDoubleWs l = true) :
    noDoubleWs (a :: l) = true := by
  cases l with
  | nil => rfl
  | cons b bs =>
    have hb : (isWs a && isWs b) = false := by
      rcases h with h | h
      · simp [h]
      · have : isWs b = false := (noLeadWs_iff.mp h) b rfl
        simp [this]
    simp [noDoubleWs, hb, hnd]

theorem noDoubleWs_collapseGo :
    ∀ (l : List Char) (flag : Bool), noDoubleWs (collapseGo flag l) = true := by
  intro l
  induction l with
  | nil => intro flag; rfl
  | cons c rest ih =>
    intro flag
    by_cases hc : isWs c = true
    · cases flag with
      | true => rw [collapseGo_cons_ws_true hc]; exact ih true
      | false =>
        rw [collapseGo_cons_ws_false hc]
        exact noDoubleWs_cons_of (Or.inr (noLeadWs_collapseGo_true rest)) (ih true)
    · rw [collapseGo_cons_not_ws (by simpa using hc)]
      exact noDoubleWs_cons_of (Or.inl (by simpa using hc)) (ih false)

theorem noDoubleWs_collapseWs (l : List Char) :
    noDoubleWs (collapseWs l) = true :=
  noDoubleWs_collapseGo l false

theorem collapseGo_ne_nil_of_mem (c : Char) (hw : isWs c = false) :
    ∀ (l : List Char), c ∈ l → ∀ flag, collapseGo flag l ≠ [] := by
  intro l
  induction l with
  | nil => intro hc; exact absurd hc (List.not_mem_nil c)
  | cons a rest ih =>
    intro hc flag
    by_cases ha : isWs a = true
    · have hcr : c ∈ rest := by
        rcases List.mem_cons.mp hc with h | h
        · rw [h, ha] at hw; exact absurd hw (by simp)
        · exact h
      cases flag with
      | true => rw [collapseGo_cons_ws_true ha]; exact ih hcr true
      | false => rw [collapseGo_cons_ws_false ha]; simp
    · rw [collapseGo_cons_not_ws (by simpa using ha)]; simp

theorem noTrailWs_collapseGo :
    ∀ (l : List Char), noTrailWs l = true →
      ∀ flag, noTrailWs (collapseGo flag l) = true := by
  intro l
  induction l with
  | nil => intro _ flag; rfl
  | cons c rest ih =>
    intro h flag
    by_cases hrest : rest = []
    · subst hrest
      have hc : isWs c = false := (noTrailWs_iff.mp h) c rfl
      rw [collapseGo_cons_not_ws hc]
      rw [noTrailWs_iff]
      intro d hd
      have hnil : collapseGo false ([] : List Char) = [] := rfl
      rw [hnil] at hd
      simp at hd
      subst hd
      exact hc
    · have htr : noTrailWs rest = true := by
        rw [noTrailWs_iff]
        intro d hd
        exact (noTrailWs_iff.mp h) d (by rw [getLast?_cons_of_ne_nil hrest, hd])
      have hex : ∃ d ∈ rest, isWs d = false := by
        have hs : rest.getLast?.isSome = true := List.getLast?_isSome.mpr hrest
        obtain ⟨d, hd⟩ := Option.isSome_iff_exists.mp hs
        refine ⟨d, ?_, (noTrailWs_iff.mp htr) d hd⟩
        rw [List.getLast?_eq_getLast rest hrest] at hd
        have := List.getLast_mem hrest
        rwa [Option.some_inj.mp hd] at this
      obtain ⟨d, hdm, hdw⟩ := hex
      by_cases hc : isWs c = true
      · cases flag with
        | true => rw [collapseGo_cons_ws_true hc]; exact ih htr true
        | false =>
          rw [collapseGo_cons_ws_false hc]
          have hXne := collapseGo_ne_nil_of_mem d hdw rest hdm true
          rw [noTrailWs_iff]
          intro e he
          rw [getLast?_cons_of_ne_nil hXne] at he
          exact (noTrailWs_iff.mp (ih htr true)) e he
      · rw [collapseGo_cons_not_ws (by simpa using hc)]
        have hXne := collapseGo_ne_nil_of_mem d hdw rest hdm false
        rw [noTrailWs_iff]
        intro e he
        rw [getLast?_cons_of_ne_nil hXne] at he
        exact (noTrailWs_iff.mp (ih htr false)) e he

theorem noTrailWs_collapseWs {l : List Char} (h : noTrailWs l = true) :
    noTrailWs (collapseWs l) = true :=
  noTrailWs_collapseGo l h false

theorem noDoubleWs_of_cons {a : Char} {l : List Char}
    (h : noDoubleWs (a :: l) = true) : noDoubleWs l = true := by
  cases l with
  | nil => rfl
  | cons b rest =>
    simp only [noDoubleWs, Bool.and_eq_true] at h
    exact h.2

theorem collapseGo_true_eq_false {l : List Char} (h : noLeadWs l = true) :
    collapseGo true l = collapseGo false l := by
  cases l with
  | nil => rfl
  | cons c rest =>
    have hc : isWs c = false := (noLeadWs_iff.mp h) c rfl
    rw [collapseGo_cons_not_ws hc, collapseGo_cons_not_ws hc]

theorem collapseWs_eq_self :
    ∀ (l : List Char), (∀ c ∈ l, isWs c = true → c = ' ') →
      noDoubleWs l = true → collapseWs l = l := by
  intro l
  induction l with
  | nil => intro _ _; rfl
  | cons c rest ih =>
    intro hsp hnd
    unfold collapseWs
    by_cases hc : isWs c = true
    · have hcSp : c = ' ' := hsp c (List.mem_cons_self c rest) hc
      have hlead : noLeadWs rest = true := by
        cases rest with
        | nil => rfl
        | cons b bs =>
          have h1 : (!(isWs c && isWs b)) = true := by
            simp only [noDoubleWs, Bool.and_eq_true] at hnd
            exact hnd.1
          rw [hc] at h1
          simp only [Bool.true_and, Bool.not_eq_true'] at h1
          simp [noLeadWs, h1]
      rw [collapseGo_cons_ws_false hc, collapseGo_true_eq_false hlead]
      have hrec := ih (fun d hd hw => hsp d (List.mem_cons_of_mem c hd) hw)
        (noDoubleWs_of_cons hnd)
      unfold collapseWs at hrec
      rw [hrec, hcSp]
    · rw [collapseGo_cons_not_ws (by simpa using hc)]
      have hrec := ih (fun d hd hw => hsp d (List.mem_cons_of_mem c hd) hw)
        (noDoubleWs_of_cons hnd)
      unfold collapseWs at hrec
      rw [hrec]


theorem dropWhile_eq_self_of_noLead {l : List Char}
    (h : noLeadWs l = true) : l.dropWhile isWs = l := by
  cases l with
  | nil => rfl
  | cons c rest =>
    have hc : isWs c = false := (noLeadWs_iff.mp h) c rfl
    rw [List.dropWhile_cons, hc]; simp

theorem noTrailWs_stripWs (l : List Char) : noTrailWs (stripWs l) = true := by
  unfold stripWs noTrailWs
  rw [List.reverse_reverse]
  exact noLeadWs_dropWhile _

theorem noLeadWs_stripWs (l : List Char) : noLeadWs (stripWs l) = true := by
  rw [noLeadWs_iff]
  intro c hc
  set A := l.dropWhile isWs with hA
  have hAlead : noLeadWs A = true := noLeadWs_dropWhile l
  obtain ⟨t, ht⟩ := List.dropWhile_suffix (l := A.reverse) isWs
  have hArw : A = (A.reverse.dropWhile isWs).reverse ++ t.reverse := by
    have h2 := congrArg List.reverse ht
    rw [List.reverse_append, List.reverse_reverse] at h2
    exact h2.symm
  have hheadA : A.head? = some c := by
    rw [hArw, List.head?_append]
    have : stripWs l = (A.reverse.dropWhile isWs).reverse := rfl
    rw [← this, hc]
    rfl
  exact (noLeadWs_iff.mp hAlead) c hheadA

theorem stripWs_eq_self {l : List Char}
    (h1 : noLeadWs l = true) (h2 : noTrailWs l = true) : stripWs l = l := by
  unfold stripWs
  rw [dropWhile_eq_self_of_noLead h1, dropWhile_eq_self_of_noLead h2,
    List.reverse_reverse]

theorem clean_text_data (s : String) :
    (clean_text s).data = collapseWs (stripWs s.data) := rfl

theorem clean_text_fixed (s : String) : clean_text (clean_text s) = clean_text s := by
  apply String.ext
  rw [clean_text_data, clean_text_data]
  set m := collapseWs (stripWs s.data) with hm
  have hlead : noLeadWs m = true := noLeadWs_collapseWs (noLeadWs_stripWs _)
  have htrail : noTrailWs m = true := noTrailWs_collapseWs (noTrailWs_stripWs _)
  rw [stripWs_eq_self hlead htrail]
  exact collapseWs_eq_self m (mem_collapseWs_ws_eq_space _) (noDoubleWs_collapseWs _)

theorem mem_dropWhile_of_not_ws {l : List Char} {c : Char}
    (hc : c ∈ l) (hw : isWs c = false) : c ∈ l.dropWhile isWs := by
  have hsplit := List.takeWhile_append_dropWhile isWs l
  rw [← hsplit] at hc
  rcases List.mem_append.mp hc with h | h
  · have := List.mem_takeWhile_imp h
    rw [this] at hw; exact absurd hw (by simp)
  · exact h

theorem stripWs_ne_nil_of_mem {l : List Char} {c : Char}
    (hc : c ∈ l) (hw : isWs c = false) : stripWs l ≠ [] := by
  unfold stripWs
  have h1 : c ∈ l.dropWhile isWs := mem_dropWhile_of_not_ws hc hw
  have h2 : c ∈ (l.dropWhile isWs).reverse := List.mem_reverse.mpr h1
  have h3 : c ∈ (l.dropWhile isWs).reverse.dropWhile isWs :=
    mem_dropWhile_of_not_ws h2 hw
  intro hnil
  rw [List.reverse_eq_nil_iff] at hnil
  rw [hnil] at h3
  exact absurd h3 (List.not_mem_nil c)

theorem stripWs_eq_nil_of_all_ws {l : List Char}
    (h : ∀ c ∈ l, isWs c = true) : stripWs l = [] := by
  unfold stripWs
  rw [List.dropWhile_eq_nil_iff.mpr h]
  rfl

/-! ### String-level corollaries and chunker lemmas -/

theorem string_ne_empty_iff {s : String} : s ≠ "" ↔ s.data ≠ [] := by
  constructor
  · intro h hd
    apply h
    apply String.ext
    rw [hd]
  · intro h he
    apply h
    rw [he]

theorem pyStrip_data (s : String) : (pyStrip s).data = stripWs s.data := rfl

theorem pyStrip_pyStrip (s : String) : pyStrip (pyStrip s) = pyStrip s := by
  apply String.ext
  rw [pyStrip_data, pyStrip_data]
  exact stripWs_eq_self (noLeadWs_stripWs _) (noTrailWs_stripWs _)

theorem pyStrip_ne_empty {s : String} {c : Char}
    (hc : c ∈ s.data) (hw : isWs c = false) : pyStrip s ≠ "" :=
  string_ne_empty_iff.mpr (by rw [pyStrip_data]; exact stripWs_ne_nil_of_mem hc hw)

theorem exists_not_ws_of_pyStrip_ne {s : String} (h : pyStrip s ≠ "") :
    ∃ c ∈ s.data, isWs c = false := by
  by_contra hall
  push_neg at hall
  have : ∀ c ∈ s.data, isWs c = true := by
    intro c hc
    have := hall c hc
    revert this
    cases isWs c <;> simp
  exact h (by apply String.ext; rw [pyStrip_data, stripWs_eq_nil_of_all_ws this])

theorem chunkGo_ne_nil (maxSize : Nat) :
    ∀ (sentences chunks : List String) (current : String),
    (chunks ≠ [] ∨ current ≠ "" ∨ sentences ≠ []) →
    chunkGo maxSize sentences chunks current ≠ [] := by
  intro sentences
  induction sentences with
  | nil =>
    intro chunks current h
    rcases h with h | h | h
    · unfold chunkGo
      by_cases hc : current = "" <;> simp [hc, h]
    · unfold chunkGo
      simp [h]
    · exact absurd rfl h
  | cons s rest ih =>
    intro chunks current h
    unfold chunkGo
    by_cases hex : current.length + s.length > maxSize
    · by_cases hc : current ≠ ""
      · rw [if_pos hex, if_pos hc]
        exact ih _ _ (Or.inl (by simp))
      · rw [if_pos hex, if_neg hc]
        apply ih _ _ (Or.inr (Or.inl _))
        have hce : current = "" := by simpa using hc
        rw [hce] at hex
        simp only [String.length] at hex
        intro hs
        rw [hs] at hex
        simp [String.length] at hex
    · rw [if_neg hex]
      apply ih _ _ (Or.inr (Or.inl _))
      apply string_ne_empty_iff.mpr
      intro hd
      have : (current ++ " " ++ s).data = current.data ++ ' ' :: s.data := by
        simp [String.data_append]
      rw [this] at hd
      simp at hd

theorem chunkGo_all_trimmed_ne (maxSize : Nat) :
    ∀ (sentences chunks : List String) (current : String),
    (∀ s ∈ sentences, ∃ c ∈ s.data, isWs c = false) →
    (∀ ch ∈ chunks, ch ≠ "" ∧ pyStrip ch = ch) →
    (current = "" ∨ ∃ c ∈ current.data, isWs c = false) →
    ∀ ch ∈ chunkGo maxSize sentences chunks current, ch ≠ "" ∧ pyStrip ch = ch := by
  intro sentences
  induction sentences with
  | nil =>
    intro chunks current _ hchunks hcur
    unfold chunkGo
    by_cases hc : current = ""
    · simp only [hc]
      simpa using hchunks
    · rcases hcur with h | ⟨c, hcm, hcw⟩
      · exact absurd h hc
      · simp only [hc, ne_eq, not_false_eq_true, if_true]
        intro ch hch
        rcases List.mem_append.mp hch with h | h
        · exact hchunks ch h
        · have : ch = pyStrip current := by simpa using h
          rw [this]
          exact ⟨pyStrip_ne_empty hcm hcw, pyStrip_pyStrip current⟩
  | cons s rest ih =>
    intro chunks current hsent hchunks hcur
    have hs : ∃ c ∈ s.data, isWs c = false := hsent s (List.mem_cons_self s rest)
    have hrest : ∀ t ∈ rest, ∃ c ∈ t.data, isWs c = false :=
      fun t ht => hsent t (List.mem_cons_of_mem s ht)
    unfold chunkGo
    by_cases hex : current.length + s.length > maxSize
    · by_cases hc : current ≠ ""
      · rw [if_pos hex, if_pos hc]
        apply ih _ _ hrest _ (Or.inr hs)
        intro ch hch
        rcases List.mem_append.mp hch with h | h
        · exact hchunks ch h
        · have heq : ch = pyStrip current := by simpa using h
          rcases hcur with h0 | ⟨c, hcm, hcw⟩
          · exact absurd h0 hc
          · rw [heq]
            exact ⟨pyStrip_ne_empty hcm hcw, pyStrip_pyStrip current⟩
      · rw [if_pos hex, if_neg hc]
        exact ih _ _ hrest hchunks (Or.inr hs)
    · rw [if_neg hex]
      apply ih _ _ hrest hchunks
      right
      obtain ⟨c, hcm, hcw⟩ := hs
      refine ⟨c, ?_, hcw⟩
      have : (current ++ " " ++ s).data = current.data ++ ' ' :: s.data := by
        simp [String.data_append]
      rw [this]
      simp [hcm]

/-! ### Dedup, stable sort and sentence-selection lemmas -/

theorem firstDedupGo_eq_self :
    ∀ (l seen : List String), l.Nodup → (∀ x ∈ l, x ∉ seen) →
      firstDedupGo seen l = l := by
  intro l
  induction l with
  | nil => intro seen _ _; rfl
  | cons a rest ih =>
    intro seen hnd hdisj
    have ha : a ∉ seen := hdisj a (List.mem_cons_self a rest)
    show (if a ∈ seen then firstDedupGo seen rest
      else a :: firstDedupGo (a :: seen) rest) = a :: rest
    rw [if_neg ha]
    congr 1
    apply ih (a :: seen) (List.nodup_cons.mp hnd).2
    intro x hx hmem
    rcases List.mem_cons.mp hmem with h | h
    · rw [h] at hx
      exact (List.nodup_cons.mp hnd).1 hx
    · exact hdisj x (List.mem_cons_of_mem a hx) h

theorem firstDedup_eq_self_of_nodup {l : List String} (h : l.Nodup) :
    firstDedup l = l :=
  firstDedupGo_eq_self l [] h (by simp)

theorem insertDesc_perm (x : String × Nat) :
    ∀ (l : List (String × Nat)), (insertDesc x l).Perm (x :: l) := by
  intro l
  induction l with
  | nil => exact List.Perm.refl _
  | cons y ys ih =>
    show (if x.2 ≥ y.2 then x :: y :: ys else y :: insertDesc x ys).Perm _
    by_cases h : x.2 ≥ y.2
    · rw [if_pos h]
    · rw [if_neg h]
      exact (ih.cons y).trans (List.Perm.swap x y ys)

theorem sortDesc_perm (l : List (String × Nat)) : (sortDesc l).Perm l := by
  induction l with
  | nil => exact List.Perm.refl _
  | cons a rest ih =>
    have h : sortDesc (a :: rest) = insertDesc a (sortDesc rest) := rfl
    rw [h]
    exact (insertDesc_perm a (sortDesc rest)).trans (ih.cons a)

theorem rankedSentences_eq (wordTok sentTok : String → List String)
    (text : String) :
    rankedSentences wordTok sentTok text =
      sortDesc ((firstDedup (sentTok text)).map
        (fun s => (s, sentence_score wordTok (extract_keywords wordTok text) s))) := rfl

/-! ### Sentiment lemmas -/

theorem textblobFallback_score (polarity : String → ℚ) (text : String) :
    (textblobFallback polarity text).score = polarity text := rfl

theorem textblobFallback_label (polarity : String → ℚ) (text : String) :
    (textblobFallback polarity text).label =
      (if polarity text > 1/10 then "positive"
        else if polarity text < -(1/10) then "negative" else "neutral") := rfl

theorem textblobFallback_props (polarity : String → ℚ) (text : String) :
    ((textblobFallback polarity text).label = "negative" →
      (textblobFallback polarity text).score ≤ 0) ∧
    ((textblobFallback polarity text).label = "positive" →
      0 ≤ (textblobFallback polarity text).score) ∧
    ((textblobFallback polarity text).label = "neutral" →
      -(1/10) ≤ (textblobFallback polarity text).score ∧
        (textblobFallback polarity text).score ≤ 1/10) := by
  rw [textblobFallback_label, textblobFallback_score]
  by_cases h1 : polarity text > 1/10
  · rw [if_pos h1]
    refine ⟨fun h => absurd h (by decide), fun _ => le_of_lt (lt_trans (by norm_num) h1),
      fun h => absurd h (by decide)⟩
  · rw [if_neg h1]
    by_cases h2 : polarity text < -(1/10)
    · rw [if_pos h2]
      refine ⟨fun _ => le_of_lt (lt_trans h2 (by norm_num)),
        fun h => absurd h (by decide), fun h => absurd h (by decide)⟩
    · rw [if_neg h2]
      refine ⟨fun h => absurd h (by decide), fun h => absurd h (by decide),
        fun _ => ⟨le_of_not_lt h2, le_of_not_lt h1⟩⟩

theorem modelSentiment_label (best : String × ℚ) :
    (modelSentiment best).label =
      (config.sentiment_label_mapping best.1).getD best.1.toLower := rfl

theorem modelSentiment_score (best : String × ℚ) :
    (modelSentiment best).score =
      (if (modelSentiment best).label = "negative" then -best.2
        else if (modelSentiment best).label = "neutral" then 0 else best.2) := rfl

theorem modelSentiment_props {best : String × ℚ} (h : 0 ≤ best.2) :
    ((modelSentiment best).label = "negative" →
      (modelSentiment best).score ≤ 0) ∧
    ((modelSentiment best).label = "positive" →
      0 ≤ (modelSentiment best).score) ∧
    ((modelSentiment best).label = "neutral" →
      -(1/10) ≤ (modelSentiment best).score ∧
        (modelSentiment best).score ≤ 1/10) := by
  refine ⟨fun hn => ?_, fun hp => ?_, fun hz => ?_⟩
  · rw [modelSentiment_score, if_pos hn]
    exact neg_nonpos_of_nonneg h
  · have hne : (modelSentiment best).label ≠ "negative" := by rw [hp]; decide
    have hne2 : (modelSentiment best).label ≠ "neutral" := by rw [hp]; decide
    rw [modelSentiment_score, if_neg hne, if_neg hne2]
    exact h
  · have hne : (modelSentiment best).label ≠ "negative" := by rw [hz]; decide
    rw [modelSentiment_score, if_neg hne, if_pos hz]
    constructor <;> norm_num

theorem maxByScore_mem : ∀ (xs : List (String × ℚ)) (x : String × ℚ),
    maxByScore x xs ∈ x :: xs := by
  intro xs
  induction xs with
  | nil => intro x; exact List.mem_cons_self x []
  | cons a as ih =>
    intro x
    have h : maxByScore x (a :: as) = maxByScore (if a.2 > x.2 then a else x) as := rfl
    rw [h]
    rcases List.mem_cons.mp (ih (if a.2 > x.2 then a else x)) with h | h
    · rw [h]
      by_cases hc : a.2 > x.2
      · rw [if_pos hc]
        exact List.mem_cons_of_mem _ (List.mem_cons_self _ _)
      · rw [if_neg hc]
        exact List.mem_cons_self _ _
    · exact List.mem_cons_of_mem _ (List.mem_cons_of_mem _ h)

theorem modelSentiment_neutral_score {best : String × ℚ}
    (h : (modelSentiment best).label = "neutral") :
    (modelSentiment best).score = 0 := by
  rw [modelSentiment_score, if_neg (by rw [h]; decide), if_pos h]

theorem textblobFallback_congr {p q : String → ℚ} {text : String}
    (h : p text = q text) : textblobFallback p text = textblobFallback q text := by
  unfold textblobFallback
  rw [h]

theorem entitiesFallback_congr {np nq : String → List String} {text : String}
    (h : np text = nq text) :
    entitiesFallback np text = entitiesFallback nq text := by
  unfold entitiesFallback
  rw [h]

theorem mapM_option_congr {α β : Type} (h1 h2 : α → Option β) :
    ∀ (l : List α), (∀ c ∈ l, h1 c = h2 c) → l.mapM h1 = l.mapM h2 := by
  intro l
  induction l with
  | nil => intro _; rfl
  | cons a rest ih =>
    intro hag
    rw [List.mapM_cons, List.mapM_cons, hag a (List.mem_cons_self a rest),
      ih (fun c hc => hag c (List.mem_cons_of_mem a hc))]

/-! ### Claim theorems -/

/-- C8: the Normalizer `clean_text` is idempotent
(`clean_text (clean_text x) = clean_text x` for every string), and its
output contains no run of two or more consecutive whitespace characters
and no leading or trailing whitespace. -/
theorem clean_text_idempotent_normalized (x : String) :
    clean_text (clean_text x) = clean_text x ∧
    noDoubleWs (clean_text x).data = true ∧
    noLeadWs (clean_text x).data = true ∧
    noTrailWs (clean_text x).data = true := by
  refine ⟨clean_text_fixed x, ?_, ?_, ?_⟩
  · rw [clean_text_data]; exact noDoubleWs_collapseWs _
  · rw [clean_text_data]; exact noLeadWs_collapseWs (noLeadWs_stripWs _)
  · rw [clean_text_data]; exact noTrailWs_collapseWs (noTrailWs_stripWs _)

/-- C7: when the sentence tokenizer yields a single sentence longer than
the maximum chunk size, `chunk_text` returns exactly one chunk holding
that whole sentence — the size bound is soft, and the sentence is never
split.  `pyStrip s = s` records that tokenized sentences carry no
leading/trailing whitespace. -/
theorem chunk_text_single_long_sentence (sentTok : String → List String)
    (text s : String) (maxSize : Nat) (htok : sentTok text = [s])
    (hlong : maxSize < s.length) (htrim : pyStrip s = s) :
    chunk_text sentTok text maxSize = [s] := by
  unfold chunk_text
  rw [htok]
  have hne : s ≠ "" := by
    intro h0
    rw [h0] at hlong
    simp at hlong
  have hcond : ("" : String).length + s.length > maxSize := by
    simpa using hlong
  show chunkGo maxSize [s] [] "" = [s]
  unfold chunkGo
  rw [if_pos hcond, if_neg (by simp)]
  unfold chunkGo
  rw [if_pos hne, htrim]
  rfl

/-- Closed instance of C7: sentence "abcdefgh" (8 chars) with maximum
chunk size 3 yields the single untruncated chunk ["abcdefgh"]. -/
theorem chunk_text_single_long_sentence_witness :
    3 < ("abcdefgh" : String).length ∧ pyStrip "abcdefgh" = "abcdefgh" ∧
    chunk_text (fun _ => ["abcdefgh"]) "abcdefgh" 3 = ["abcdefgh"] :=
  ⟨by decide, by decide,
    chunk_text_single_long_sentence (fun _ => ["abcdefgh"]) "abcdefgh"
      "abcdefgh" 3 rfl (by decide) (by decide)⟩

/-- C9: on the model summarization path (cleaned text longer than 200
characters) the chunk list is non-empty — given that the sentence
tokenizer returns at least one sentence on non-empty input, as NLTK's
does — so `max_length // len(chunks)` never divides by zero. -/
theorem summarize_model_path_chunks_nonempty (sentTok : String → List String)
    (text : String) (hlen : 200 < (clean_text text).length)
    (htok : ∀ t, t ≠ "" → sentTok t ≠ []) :
    0 < (chunk_text sentTok (clean_text text) config.max_chunk_size).length := by
  have hne : clean_text text ≠ "" := by
    rw [string_ne_empty_iff]
    intro hd
    have hz : (clean_text text).length = 0 := by
      rw [show (clean_text text).length = (clean_text text).data.length from rfl,
        hd]
      rfl
    omega
  have hs := htok _ hne
  have hres := chunkGo_ne_nil config.max_chunk_size
    (sentTok (clean_text text)) [] "" (Or.inr (Or.inr hs))
  exact List.length_pos.mpr hres

set_option maxRecDepth 4000 in
/-- Closed instance of C9: a 201-character text (all 'a') exceeds the
200-character threshold and produces a positive chunk count. -/
theorem summarize_model_path_chunks_nonempty_witness :
    200 < (clean_text (String.mk (List.replicate 201 'a'))).length ∧
    0 < (chunk_text (fun t => if t = "" then [] else [t])
      (clean_text (String.mk (List.replicate 201 'a')))
      config.max_chunk_size).length :=
  ⟨by decide,
    summarize_model_path_chunks_nonempty _ _ (by decide)
      (fun t ht => by simp [ht])⟩

/-- C10: every chunk returned by `chunk_text` is a non-empty string with
no leading or trailing whitespace (it is a fixed point of `pyStrip`) —
given that tokenized sentences are not whitespace-only, as NLTK's
sentence tokenizer guarantees. -/
theorem chunk_text_chunks_trimmed_nonempty (sentTok : String → List String)
    (text : String) (maxSize : Nat)
    (htok : ∀ s ∈ sentTok text, pyStrip s ≠ "") :
    ∀ ch ∈ chunk_text sentTok text maxSize, ch ≠ "" ∧ pyStrip ch = ch := by
  apply chunkGo_all_trimmed_ne
  · intro s hs
    exact exists_not_ws_of_pyStrip_ne (htok s hs)
  · intro ch hch
    exact absurd hch (List.not_mem_nil ch)
  · exact Or.inl rfl

/-- Closed instance of C10: with sentences ["ab", "cd"] and maximum
chunk size 1, the chunk "ab" is non-empty and trimmed. -/
theorem chunk_text_chunks_trimmed_nonempty_witness :
    pyStrip "ab" ≠ "" ∧ ("ab" ≠ "" ∧ pyStrip "ab" = "ab") :=
  ⟨by decide,
    chunk_text_chunks_trimmed_nonempty (fun _ => ["ab", "cd"]) "x" 1
      (by decide) "ab" (by decide)⟩

/-- C1 counterexample: a successful spaCy run returning 11 spans makes
`extract_entities` return all 11 — more than `config.max_entities = 10`;
the `return entities` on the model path skips the truncation. -/
theorem extract_entities_model_path_untruncated :
    (extract_entities
      (some (fun _ => some (List.replicate 11 ("Paris", "GPE"))))
      (fun _ => []) "Paris is nice.").length = 11 ∧
    ¬(11 ≤ config.max_entities) :=
  ⟨rfl, by decide⟩

/-- C1 amended: the truncation to `config.max_entities` applies on the
fallback path (spaCy absent or raising); a successful model run returns
its span list untruncated. -/
theorem extract_entities_fallback_truncated
    (model : Option (String → Option (List (String × String))))
    (nounPhrases : String → List String) (text : String)
    (h : model = none ∨
      ∃ f, model = some f ∧ f (entitiesModelInput text) = none) :
    (extract_entities model nounPhrases text).length ≤ config.max_entities := by
  rcases h with h | ⟨f, hf, hres⟩
  · rw [h]
    exact List.length_take_le _ _
  · rw [hf]
    have hred : extract_entities (some f) nounPhrases text
        = entitiesFromModel nounPhrases text (f (entitiesModelInput text)) := rfl
    rw [hred, hres]
    exact List.length_take_le _ _

/-- Closed instance of the amended C1: with spaCy unavailable and 20
candidate noun phrases, at most 10 entities are returned. -/
theorem extract_entities_fallback_truncated_witness :
    ((none : Option (String → Option (List (String × String)))) = none) ∧
    (extract_entities none (fun _ => List.replicate 20 "big city") "t").length
      ≤ config.max_entities :=
  ⟨rfl, extract_entities_fallback_truncated none
    (fun _ => List.replicate 20 "big city") "t" (Or.inl rfl)⟩

/-- C2 counterexample: on the TextBlob fallback with polarity 1/20 the
label is "neutral" but the score stays 1/20 — it is not forced to 0. -/
theorem analyze_sentiment_neutral_nonzero_score :
    (analyze_sentiment none (fun _ => (1:ℚ)/20) "good").label = "neutral" ∧
    (analyze_sentiment none (fun _ => (1:ℚ)/20) "good").score = 1/20 ∧
    ((1:ℚ)/20) ≠ 0 := by
  have h1 : analyze_sentiment none (fun _ => (1:ℚ)/20) "good"
      = textblobFallback (fun _ => (1:ℚ)/20) "good" := by
    unfold analyze_sentiment
    rw [if_neg (by decide)]
  rw [h1, textblobFallback_label, textblobFallback_score]
  rw [if_neg (by norm_num), if_neg (by norm_num)]
  exact ⟨rfl, rfl, by norm_num⟩

/-- C2 amended: for every result of `analyze_sentiment`: label
"negative" implies score ≤ 0 and label "positive" implies score ≥ 0 on
all paths (the model path given the transformer's class scores are
non-negative); label "neutral" forces score = 0 on the empty-text path
(which returns exactly {0, neutral, 0}) and on the model path, while
the TextBlob fallback keeps the raw polarity, guaranteeing only
-1/10 ≤ score ≤ 1/10 for "neutral". -/
theorem analyze_sentiment_sign_agreement
    (analyzer : Option (String → Option (List (String × ℚ))))
    (polarity : String → ℚ) (text : String)
    (hnn : ∀ f, analyzer = some f → ∀ (inp : String)
      (out : List (String × ℚ)), f inp = some out → ∀ p ∈ out, 0 ≤ p.2) :
    ((analyze_sentiment analyzer polarity text).label = "negative" →
      (analyze_sentiment analyzer polarity text).score ≤ 0) ∧
    ((analyze_sentiment analyzer polarity text).label = "positive" →
      0 ≤ (analyze_sentiment analyzer polarity text).score) ∧
    ((analyze_sentiment analyzer polarity text).label = "neutral" →
      -(1/10) ≤ (analyze_sentiment analyzer polarity text).score ∧
        (analyze_sentiment analyzer polarity text).score ≤ 1/10) ∧
    (text = "" →
      analyze_sentiment analyzer polarity text = ⟨0, "neutral", 0⟩) ∧
    (∀ (f : String → Option (List (String × ℚ)))
      (r : String × ℚ) (rs : List (String × ℚ)), analyzer = some f →
      f (sentimentModelInput text) = some (r :: rs) →
      (analyze_sentiment analyzer polarity text).label = "neutral" →
      (analyze_sentiment analyzer polarity text).score = 0) := by
  by_cases htext : text = ""
  · have h : analyze_sentiment analyzer polarity text
        = ⟨0, "neutral", 0⟩ := by
      unfold analyze_sentiment
      rw [if_pos htext]
    rw [h]
    exact ⟨fun hx => absurd hx (by decide), fun hx => absurd hx (by decide),
      fun _ => by norm_num, fun _ => rfl, fun _ _ _ _ _ _ => rfl⟩
  · cases analyzer with
    | none =>
      have h : analyze_sentiment none polarity text
          = textblobFallback polarity text := by
        unfold analyze_sentiment
        rw [if_neg htext]
      rw [h]
      obtain ⟨p1, p2, p3⟩ := textblobFallback_props polarity text
      exact ⟨p1, p2, p3, fun he => absurd he htext,
        fun f _ _ hf => Option.noConfusion hf⟩
    | some f =>
      have h : analyze_sentiment (some f) polarity text
          = sentimentFromModel polarity text (f (sentimentModelInput text)) := by
        unfold analyze_sentiment
        rw [if_neg htext]
      rw [h]
      cases hres : f (sentimentModelInput text) with
      | none =>
        obtain ⟨p1, p2, p3⟩ := textblobFallback_props polarity text
        refine ⟨p1, p2, p3, fun he => absurd he htext, ?_⟩
        intro g r rs hg hgr
        injection hg with hg'
        rw [← hg', hres] at hgr
        exact Option.noConfusion hgr
      | some out =>
        cases out with
        | nil =>
          obtain ⟨p1, p2, p3⟩ := textblobFallback_props polarity text
          refine ⟨p1, p2, p3, fun he => absurd he htext, ?_⟩
          intro g r rs hg hgr
          injection hg with hg'
          rw [← hg', hres] at hgr
          injection hgr with hgr'
          exact List.noConfusion hgr'
        | cons r rs =>
          have hmem := maxByScore_mem rs r
          have hb : 0 ≤ (maxByScore r rs).2 :=
            hnn f rfl _ _ hres _ hmem
          obtain ⟨p1, p2, p3⟩ := modelSentiment_props hb
          exact ⟨p1, p2, p3, fun he => absurd he htext,
            fun _ _ _ _ _ hz => modelSentiment_neutral_score hz⟩

/-- Closed instance of the amended C2 (fallback path, polarity 0). -/
theorem analyze_sentiment_sign_agreement_witness :
    ((analyze_sentiment none (fun _ => (0:ℚ)) "x").label = "negative" →
      (analyze_sentiment none (fun _ => (0:ℚ)) "x").score ≤ 0) ∧
    ((analyze_sentiment none (fun _ => (0:ℚ)) "x").label = "positive" →
      0 ≤ (analyze_sentiment none (fun _ => (0:ℚ)) "x").score) ∧
    ((analyze_sentiment none (fun _ => (0:ℚ)) "x").label = "neutral" →
      -(1/10) ≤ (analyze_sentiment none (fun _ => (0:ℚ)) "x").score ∧
        (analyze_sentiment none (fun _ => (0:ℚ)) "x").score ≤ 1/10) ∧
    (("x" : String) = "" →
      analyze_sentiment none (fun _ => (0:ℚ)) "x" = ⟨0, "neutral", 0⟩) ∧
    (∀ (f : String → Option (List (String × ℚ)))
      (r : String × ℚ) (rs : List (String × ℚ)),
      (none : Option (String → Option (List (String × ℚ)))) = some f →
      f (sentimentModelInput "x") = some (r :: rs) →
      (analyze_sentiment none (fun _ => (0:ℚ)) "x").label = "neutral" →
      (analyze_sentiment none (fun _ => (0:ℚ)) "x").score = 0) :=
  analyze_sentiment_sign_agreement none (fun _ => 0) "x"
    (fun _ h => Option.noConfusion h)

/-- Spec of the `process_text` operation loop: the executed prefix is
`takeWhile recognized`, and an unrecognized name anywhere produces an
error. -/
theorem runOperations_executed (ops : List String) :
    (runOperations ops).1 =
      ops.takeWhile (fun op => decide (op ∈ validOps)) ∧
    ((∃ op ∈ ops, op ∉ validOps) → (runOperations ops).2.isSome) := by
  induction ops with
  | nil =>
    exact ⟨rfl, fun ⟨op, hm, _⟩ => absurd hm (List.not_mem_nil op)⟩
  | cons op rest ih =>
    by_cases hv : op ∈ validOps
    · have hr : runOperations (op :: rest)
          = (op :: (runOperations rest).1, (runOperations rest).2) := by
        show (if op ∈ validOps then _ else _) = _
        rw [if_pos hv]
      constructor
      · rw [hr, List.takeWhile_cons, decide_eq_true hv]
        simpa using ih.1
      · rintro ⟨o, hm, hnv⟩
        rw [hr]
        apply ih.2
        rcases List.mem_cons.mp hm with h | h
        · rw [h] at hnv
          exact absurd hv hnv
        · exact ⟨o, h, hnv⟩
    · have hr : runOperations (op :: rest) = ([],
          some ("Unknown operation: " ++ op ++
            ". Supported: summarize, sentiment, entities, language")) := by
        show (if op ∈ validOps then _ else _) = _
        rw [if_neg hv]
      constructor
      · rw [hr, List.takeWhile_cons, decide_eq_false hv]
        simp
      · intro _
        rw [hr]
        rfl

/-- C3 counterexample: with operations ["summarize", "bogus"], the
request is rejected with a validation error, but the "summarize"
capability has already executed — the executed list is ["summarize"],
not empty. -/
theorem process_text_runs_ops_before_unknown :
    process_text "Hello." ["summarize", "bogus"] =
      (["summarize"], some ("Unknown operation: bogus. " ++
        "Supported: summarize, sentiment, entities, language")) ∧
    (["summarize"] : List String) ≠ [] :=
  ⟨by decide, by decide⟩

/-- C3 amended: an unrecognized capability name anywhere in the list
makes the whole request fail with a validation error (no result is
returned), but the recognized capabilities before the first unknown name
have already executed: the executed list is exactly the longest valid
prefix, which is empty only when the unknown name comes first. -/
theorem process_text_unknown_op_rejected (text : String) (ops : List String)
    (htext : text ≠ "") (hstrip : pyStrip text ≠ "")
    (hbad : ∃ op ∈ ops, op ∉ validOps) :
    (process_text text ops).2.isSome ∧
    (process_text text ops).1 =
      ops.takeWhile (fun op => decide (op ∈ validOps)) := by
  have hops : ops ≠ [] := by
    rcases hbad with ⟨op, hm, _⟩
    intro h
    rw [h] at hm
    exact absurd hm (List.not_mem_nil op)
  unfold process_text
  rw [if_neg (not_or.mpr ⟨htext, hstrip⟩), if_neg hops]
  exact ⟨(runOperations_executed ops).2 hbad, (runOperations_executed ops).1⟩

/-- Closed instance of the amended C3. -/
theorem process_text_unknown_op_rejected_witness :
    ("Hello." : String) ≠ "" ∧ pyStrip "Hello." ≠ "" ∧
    ((process_text "Hello." ["summarize", "bogus"]).2.isSome ∧
      (process_text "Hello." ["summarize", "bogus"]).1 =
        ["summarize", "bogus"].takeWhile (fun op => decide (op ∈ validOps))) :=
  ⟨by decide, by decide,
    process_text_unknown_op_rejected "Hello." ["summarize", "bogus"]
      (by decide) (by decide) ⟨"bogus", by decide, by decide⟩⟩

/-- C4 counterexample: `analyze_sentiment` consumes the raw text, not
the normalized one.  On "a  b" (double space) a polarity oracle
returning +1 for the normalized "a b" and -1 otherwise yields label
"negative" — impossible had the text been passed through the Normalizer
before the fallback consumed it. -/
theorem sentiment_consumes_unnormalized_text :
    clean_text "a  b" = "a b" ∧
    (analyze_sentiment none
      (fun s => if s = "a b" then 1 else -1) "a  b").label = "negative" := by
  constructor
  · decide
  · have h1 : analyze_sentiment none
        (fun s => if s = "a b" then (1:ℚ) else -1) "a  b"
        = textblobFallback (fun s => if s = "a b" then 1 else -1) "a  b" := by
      unfold analyze_sentiment
      rw [if_neg (by decide)]
    rw [h1, textblobFallback_label]
    rw [if_neg (by decide : ¬("a  b" : String) = "a b")]
    rw [if_neg (by norm_num), if_pos (by norm_num)]

/-- C4 amended: only summarization normalizes its input.  (a) Past the
length-50 gate, the fallback path of `summarize_text` computes the
extractive summary of `clean_text text`; (b) the summarizer model is
only ever applied to chunks of `clean_text text` — two models agreeing
on those chunks give identical summaries; (c) that consumed text is a
fixed point of the Normalizer.  By contrast (d) `analyze_sentiment`
depends on its model only through the raw truncation `text.take 512`
and on the TextBlob polarity only at the raw `text`; (e)
`extract_entities` likewise depends only on the model at the raw
`text.take 1000` and the noun phrases of the raw `text`; and (f)
`detect_language` depends only on the detector at the raw `text`. -/
theorem summarize_normalizes_sentiment_entities_raw
    (wordTok sentTok : String → List String) (text : String)
    (max_length : Int) :
    (¬(text = "" ∨ (pyStrip text).length < 50) →
      summarize_text wordTok sentTok none text max_length
        = extractive_summary wordTok sentTok (clean_text text) max_length) ∧
    (∀ f g : String → Int → Int → Option String,
      (∀ c ∈ chunk_text sentTok (clean_text text) config.max_chunk_size,
        ∀ a b, f c a b = g c a b) →
      summarize_text wordTok sentTok (some f) text max_length
        = summarize_text wordTok sentTok (some g) text max_length) ∧
    clean_text (clean_text text) = clean_text text ∧
    (∀ (f g : String → Option (List (String × ℚ))) (p q : String → ℚ),
      f (text.take 512) = g (text.take 512) → p text = q text →
      analyze_sentiment (some f) p text = analyze_sentiment (some g) q text) ∧
    (∀ (f g : String → Option (List (String × String)))
      (np nq : String → List String),
      f (text.take 1000) = g (text.take 1000) → np text = nq text →
      extract_entities (some f) np text = extract_entities (some g) nq text) ∧
    (∀ d e : String → Option String, d text = e text →
      detect_language d text = detect_language e text) := by
  refine ⟨?_, ?_, clean_text_fixed text, ?_, ?_, ?_⟩
  · intro hgate
    unfold summarize_text
    rw [if_neg hgate]
  · intro f g hag
    have hform : ∀ (h : String → Int → Int → Option String),
        ¬(text = "" ∨ (pyStrip text).length < 50) →
        summarize_text wordTok sentTok (some h) text max_length
          = if (clean_text text).length > 200 then
              (match ((chunk_text sentTok (clean_text text)
                  config.max_chunk_size).take 3).mapM
                  (fun c => h c (chunkBudget max_length
                    (chunk_text sentTok (clean_text text)
                      config.max_chunk_size).length) modelMinLength) with
                | some summaries => " ".intercalate summaries
                | none => extractive_summary wordTok sentTok (clean_text text)
                    max_length)
            else extractive_summary wordTok sentTok (clean_text text)
              max_length := by
      intro h hgate
      unfold summarize_text
      rw [if_neg hgate]
    by_cases hgate : text = "" ∨ (pyStrip text).length < 50
    · unfold summarize_text
      rw [if_pos hgate, if_pos hgate]
    · rw [hform f hgate, hform g hgate]
      by_cases hlen : (clean_text text).length > 200
      · rw [if_pos hlen, if_pos hlen]
        have hmap : ((chunk_text sentTok (clean_text text)
            config.max_chunk_size).take 3).mapM
            (fun c => f c (chunkBudget max_length
              (chunk_text sentTok (clean_text text)
                config.max_chunk_size).length) modelMinLength)
            = ((chunk_text sentTok (clean_text text)
              config.max_chunk_size).take 3).mapM
              (fun c => g c (chunkBudget max_length
                (chunk_text sentTok (clean_text text)
                  config.max_chunk_size).length) modelMinLength) := by
          apply mapM_option_congr
          intro c hc
          exact hag c (List.take_subset 3 _ hc) _ _
        rw [hmap]
      · rw [if_neg hlen, if_neg hlen]
  · intro f g p q hfg hpq
    unfold analyze_sentiment
    by_cases htext : text = ""
    · rw [if_pos htext, if_pos htext]
    · rw [if_neg htext, if_neg htext]
      show sentimentFromModel p text (f (sentimentModelInput text))
        = sentimentFromModel q text (g (sentimentModelInput text))
      have hfg' : f (sentimentModelInput text) = g (sentimentModelInput text) :=
        hfg
      rw [hfg']
      cases g (sentimentModelInput text) with
      | none => exact textblobFallback_congr hpq
      | some out =>
        cases out with
        | nil => exact textblobFallback_congr hpq
        | cons r rs => rfl
  · intro f g np nq hfg hnp
    show entitiesFromModel np text (f (entitiesModelInput text))
      = entitiesFromModel nq text (g (entitiesModelInput text))
    have hfg' : f (entitiesModelInput text) = g (entitiesModelInput text) := hfg
    rw [hfg']
    cases g (entitiesModelInput text) with
    | none => exact entitiesFallback_congr hnp
    | some spans => rfl
  · intro d e hde
    unfold detect_language
    rw [hde]

/-- Closed instance of the amended C4: a 60-character text passes the
length gate and `summarize_text`'s fallback computes the extractive
summary of the cleaned text. -/
theorem summarize_normalizes_sentiment_entities_raw_witness :
    ¬((String.mk (List.replicate 60 'a')) = "" ∨
      (pyStrip (String.mk (List.replicate 60 'a'))).length < 50) ∧
    summarize_text spaceTok triTok none (String.mk (List.replicate 60 'a')) 150
      = extractive_summary spaceTok triTok
        (clean_text (String.mk (List.replicate 60 'a'))) 150 :=
  ⟨by decide,
    (summarize_normalizes_sentiment_entities_raw spaceTok triTok
      (String.mk (List.replicate 60 'a')) 150).1 (by decide)⟩

/-- C6 counterexample: with max_length = 30 and 3 chunks, the per-chunk
budget is min(30 // 3, 130) = 10, which is below 20. -/
theorem chunk_budget_below_twenty :
    chunkBudget 30 3 = 10 ∧ ¬(20 ≤ chunkBudget 30 3) :=
  ⟨by decide, by decide⟩

/-- C6 amended: the per-chunk budget is `min(max_length // chunk_count,
130)`: it never exceeds 130 and never exceeds the proportional share of
`max_length`; the constant 20 is only the separate `min_length`
parameter handed to the model — the budget itself has no lower clamp and
can fall below 20. -/
theorem chunk_budget_capped (max_length : Int) (n : Nat) (h : 0 < n) :
    chunkBudget max_length n ≤ 130 ∧
    chunkBudget max_length n * (n : Int) ≤ max_length := by
  constructor
  · exact min_le_right _ _
  · have hn : (0:Int) < (n:Int) := by exact_mod_cast h
    have h1 : chunkBudget max_length n ≤ max_length.fdiv n := min_le_left _ _
    have h2 : max_length.fdiv n = max_length / n :=
      Int.fdiv_eq_ediv _ (le_of_lt hn)
    have h3 : max_length / n * n ≤ max_length :=
      Int.ediv_mul_le _ (ne_of_gt hn)
    calc chunkBudget max_length n * (n : Int)
        ≤ max_length.fdiv n * n :=
          mul_le_mul_of_nonneg_right h1 (le_of_lt hn)
      _ = max_length / n * n := by rw [h2]
      _ ≤ max_length := h3

/-- Closed instance of the amended C6 at the default max_length 150 and
3 chunks. -/
theorem chunk_budget_capped_witness :
    0 < 3 ∧ (chunkBudget 150 3 ≤ 130 ∧
      chunkBudget 150 3 * ((3:Nat) : Int) ≤ 150) :=
  ⟨by decide, chunk_budget_capped 150 3 (by decide)⟩

/-- When the deduplicated sentence count is at most the selection bound,
every dict key is selected: the selected texts are a permutation of the
deduplicated sentences. -/
theorem summarySentences_perm_of_le (wordTok sentTok : String → List String)
    (text : String)
    (hle : (firstDedup (sentTok text)).length
      ≤ min 3 ((sentTok text).length / 2)) :
    (summarySentences wordTok sentTok text).Perm
      (firstDedup (sentTok text)) := by
  unfold summarySentences
  have hperm : (rankedSentences wordTok sentTok text).Perm
      ((firstDedup (sentTok text)).map
        (fun s => (s, sentence_score wordTok (extract_keywords wordTok text) s))) := by
    rw [rankedSentences_eq]
    exact sortDesc_perm _
  have hlen : (rankedSentences wordTok sentTok text).length
      = (firstDedup (sentTok text)).length := by
    rw [hperm.length_eq, List.length_map]
  have htake : (rankedSentences wordTok sentTok text).take
      (min 3 ((sentTok text).length / 2))
      = rankedSentences wordTok sentTok text :=
    List.take_of_length_le (by rw [hlen]; exact hle)
  rw [htake]
  have h2 := hperm.map Prod.fst
  have h3 : (((firstDedup (sentTok text)).map
      (fun s => (s, sentence_score wordTok (extract_keywords wordTok text) s))).map
        Prod.fst) = firstDedup (sentTok text) := by
    simp only [List.map_map]
    exact List.map_id'' (fun x => rfl) _
  rwa [h3] at h2

/-- C5 counterexample: on six sentences of which the first four are
identical, the dict collapses to 3 keys, all get selected, and the final
loop re-emits every occurrence: 6 sentences are emitted, not
min(3, 6 // 2) = 3 as the claim states. -/
theorem extractive_summary_duplicates_break_count :
    (emittedSentences spaceTok dupTok dupText).length = 6 ∧
    min 3 ((dupTok dupText).length / 2) = 3 ∧ (6 : Nat) ≠ 3 := by
  refine ⟨?_, by decide, by decide⟩
  have hperm := summarySentences_perm_of_le spaceTok dupTok dupText (by decide)
  have hkeys : firstDedup (dupTok dupText)
      = ["The cat sat here.", "Dogs bark loudly outside.",
         "Birds sing in trees."] := by decide
  have hmem : ∀ s ∈ dupTok dupText,
      s ∈ summarySentences spaceTok dupTok dupText := by
    intro s hs
    rw [hperm.mem_iff, hkeys]
    have hs' : s ∈ dupSents := hs
    fin_cases hs' <;> decide
  have hfe : emittedSentences spaceTok dupTok dupText = dupTok dupText := by
    have hem : emittedSentences spaceTok dupTok dupText
        = (dupTok dupText).filter
          (fun s => s ∈ summarySentences spaceTok dupTok dupText) := rfl
    rw [hem]
    exact List.filter_eq_self.mpr (fun a ha => decide_eq_true (hmem a ha))
  rw [hfe]
  decide

/-- C5 amended: for the extractive-summary fallback, (1) a text of at
most 2 sentences is returned unchanged; (2) for more than 2 sentences,
provided the tokenized sentences are pairwise distinct, the emitted
sentences number exactly min(3, N // 2), form a subsequence of the
source sentences (original order), and — when the joined summary does
not exceed max_length — the output is exactly their space-join.  With
duplicate sentences every occurrence of a selected sentence text is
re-emitted, so the count can exceed the formula (see the
counterexample). -/
theorem extractive_summary_selection (wordTok sentTok : String → List String)
    (text : String) (max_length : Int) :
    ((sentTok text).length ≤ 2 →
      extractive_summary wordTok sentTok text max_length = text) ∧
    ((sentTok text).Nodup → 2 < (sentTok text).length →
      ((emittedSentences wordTok sentTok text).length
          = min 3 ((sentTok text).length / 2) ∧
        (emittedSentences wordTok sentTok text).Sublist (sentTok text) ∧
        ((((" ".intercalate (emittedSentences wordTok sentTok text)).length : Int)
            ≤ max_length) →
          extractive_summary wordTok sentTok text max_length
            = " ".intercalate (emittedSentences wordTok sentTok text)))) := by
  constructor
  · intro hle
    unfold extractive_summary
    rw [if_pos hle]
  · intro hnd hN
    have hfd : firstDedup (sentTok text) = sentTok text :=
      firstDedup_eq_self_of_nodup hnd
    have hperm : (rankedSentences wordTok sentTok text).Perm
        ((sentTok text).map
          (fun s => (s, sentence_score wordTok (extract_keywords wordTok text) s))) := by
      rw [rankedSentences_eq, hfd]
      exact sortDesc_perm _
    have hfull : ((rankedSentences wordTok sentTok text).map Prod.fst).Perm
        (sentTok text) := by
      have h1 := hperm.map Prod.fst
      have h2 : (((sentTok text).map
          (fun s => (s, sentence_score wordTok (extract_keywords wordTok text) s))).map
            Prod.fst) = sentTok text := by
        simp only [List.map_map]
        exact List.map_id'' (fun x => rfl) _
      rwa [h2] at h1
    have hfull_nodup : ((rankedSentences wordTok sentTok text).map Prod.fst).Nodup :=
      hfull.nodup_iff.mpr hnd
    have hselected : summarySentences wordTok sentTok text
        = ((rankedSentences wordTok sentTok text).map Prod.fst).take
          (min 3 ((sentTok text).length / 2)) := by
      unfold summarySentences
      rw [List.map_take]
    have hsel_sublist : (summarySentences wordTok sentTok text).Sublist
        ((rankedSentences wordTok sentTok text).map Prod.fst) := by
      rw [hselected]
      exact List.take_sublist _ _
    have hsel_nodup : (summarySentences wordTok sentTok text).Nodup :=
      List.Nodup.sublist hsel_sublist hfull_nodup
    have hsel_len : (summarySentences wordTok sentTok text).length
        = min 3 ((sentTok text).length / 2) := by
      rw [hselected, List.length_take]
      have hlen : ((rankedSentences wordTok sentTok text).map Prod.fst).length
          = (sentTok text).length := hfull.length_eq
      rw [hlen]
      exact min_eq_left
        (le_trans (min_le_right _ _) (Nat.div_le_self _ _))
    have hsel_sub : ∀ x ∈ summarySentences wordTok sentTok text,
        x ∈ sentTok text :=
      fun x hx => hfull.mem_iff.mp (hsel_sublist.subset hx)
    have hem : emittedSentences wordTok sentTok text
        = (sentTok text).filter
          (fun s => s ∈ summarySentences wordTok sentTok text) := rfl
    have hem_sublist : (emittedSentences wordTok sentTok text).Sublist
        (sentTok text) := by
      rw [hem]
      exact List.filter_sublist _
    have hem_nodup : (emittedSentences wordTok sentTok text).Nodup :=
      List.Nodup.sublist hem_sublist hnd
    have hem_perm : (emittedSentences wordTok sentTok text).Perm
        (summarySentences wordTok sentTok text) := by
      rw [List.perm_ext_iff_of_nodup hem_nodup hsel_nodup]
      intro a
      rw [hem, List.mem_filter]
      constructor
      · intro h
        simpa using h.2
      · intro h
        exact ⟨hsel_sub a h, by simpa using h⟩
    refine ⟨by rw [hem_perm.length_eq, hsel_len], hem_sublist, ?_⟩
    intro hfit
    unfold extractive_summary
    rw [if_neg (by omega)]
    show (if ((" ".intercalate (emittedSentences wordTok sentTok text)).length : Int)
        > max_length
      then (" ".intercalate (emittedSentences wordTok sentTok text)).take
        max_length.toNat ++ "..."
      else " ".intercalate (emittedSentences wordTok sentTok text))
      = " ".intercalate (emittedSentences wordTok sentTok text)
    rw [if_neg (not_lt.mpr hfit)]

/-- Closed instance of the amended C5: three distinct sentences, so the
emitted count is min(3, 3 // 2) = 1. -/
theorem extractive_summary_selection_witness :
    (triTok "w").Nodup ∧ 2 < (triTok "w").length ∧
    ((emittedSentences spaceTok triTok "w").length
        = min 3 ((triTok "w").length / 2) ∧
      (emittedSentences spaceTok triTok "w").Sublist (triTok "w") ∧
      ((((" ".intercalate (emittedSentences spaceTok triTok "w")).length : Int)
          ≤ 150) →
        extractive_summary spaceTok triTok "w" 150
          = " ".intercalate (emittedSentences spaceTok triTok "w"))) :=
  ⟨by decide, by decide,
    (extractive_summary_selection spaceTok triTok "w" 150).2
      (by decide) (by decide)⟩

end NLP
